import Mathlib

/-!
# Paper-Verify: a verification development

Shallow embedding of the core of the `paperverify` package (the claim
extractor `parser.py`, the observation index `matcher.py` and the
verification ladder `validator.py`), with theorems settling the frozen
claims about it.

Modelling conventions:
* Python `float` is modelled as `ℚ` (exact rational arithmetic).
* Python `str` is modelled as `List Char` (ASCII is all that the
  program's own literals and the claims exercise).
* A Python function that can raise `ValueError` is modelled as an
  `Option`-returning function (`none` = the exception, which every
  caller in the embedded code catches and turns into a skip).
* `round(x, 6)` is modelled as exact decimal rounding of the rational
  value to 6 fractional digits, ties to even (Python's `round`).
-/

namespace PaperVerify

/-! ## String helpers (Python `str.lower`, `in`, `startswith`) -/

/-- Python `s.lower()` (ASCII case folding, as `Char.toLower`). -/
def lowerStr (s : List Char) : List Char := s.map Char.toLower

/-- `startsWithL needle hay`: `hay` begins with `needle`. -/
def startsWithL : List Char → List Char → Bool
  | [], _ => true
  | _ :: _, [] => false
  | a :: as, b :: bs => a == b && startsWithL as bs

/-- Python `needle in hay` (substring containment). -/
def containsSub (needle : List Char) : List Char → Bool
  | [] => needle.isEmpty
  | c :: rest => startsWithL needle (c :: rest) || containsSub needle rest

/-! ## matcher.py: `ResultValue`, the value index, `find_matches`, `find_exact` -/

/-- `matcher.ResultValue`: one observation from a result file. -/
structure ResultValue where
  value : ℚ
  source_file : List Char
  path : List Char
  model : Option (List Char) := none
  dataset : Option (List Char) := none
  metric : Option (List Char) := none
deriving DecidableEq

/-- Round-half-to-even of a rational to an integer (Python `round` tie rule). -/
def rhe (x : ℚ) : ℤ :=
  if x - ⌊x⌋ = 1/2 then (if ⌊x⌋ % 2 = 0 then ⌊x⌋ else ⌊x⌋ + 1) else round x

/-- Python `round(v, 6)`: the value rounded to 6 fractional digits. -/
def round6 (q : ℚ) : ℚ := (rhe (q * 1000000) : ℚ) / 1000000

/-- One step of `_build_index`'s loop body: append `rv` to the bucket of
`key`, creating the bucket at the end if the key is new (an
insertion-ordered dictionary, as Python's `dict`). -/
def addToIndex : List (ℚ × List ResultValue) → ℚ → ResultValue → List (ℚ × List ResultValue)
  | [], key, rv => [(key, [rv])]
  | (k, b) :: rest, key, rv =>
    if k == key then (k, b ++ [rv]) :: rest
    else (k, b) :: addToIndex rest key rv

/-- Bucket lookup with empty-list default: Python `index.get(key, [])`. -/
def lookupBucket : List (ℚ × List ResultValue) → ℚ → List ResultValue
  | [], _ => []
  | (k, b) :: rest, key => if k == key then b else lookupBucket rest key

/-- `ResultMatcher._build_index`: clear the previous index (`old` is
discarded, as `self.index.clear()`) and insert every value keyed by its
value rounded to 6 digits. -/
def _build_index (_old : List (ℚ × List ResultValue)) (values : List ResultValue) :
    List (ℚ × List ResultValue) :=
  values.foldl (fun idx rv => addToIndex idx (round6 rv.value) rv) []

/-- `matcher.ResultMatcher`: the ordered observation collection and its
exact-lookup index. -/
structure ResultMatcher where
  values : List ResultValue
  index : List (ℚ × List ResultValue)
deriving DecidableEq

/-- A matcher whose index was built from its values (the state after
`load_directory` / `_build_index`). -/
def ResultMatcher.ofValues (vs : List ResultValue) : ResultMatcher :=
  ⟨vs, _build_index [] vs⟩

/-- `ResultMatcher.find_matches`: linear scan; skip zero values
(`continue`), keep those within `tolerance_pct` percent of the
observation's own value. -/
def find_matches (m : ResultMatcher) (target : ℚ) (tolerance_pct : ℚ) : List ResultValue :=
  m.values.filter fun rv =>
    if rv.value == 0 then false
    else decide (|rv.value - target| / |rv.value| * 100 ≤ tolerance_pct)

/-- `ResultMatcher.find_exact`: the bucket of `round(target, 6)`. -/
def find_exact (m : ResultMatcher) (target : ℚ) : List ResultValue :=
  lookupBucket m.index (round6 target)

/-! ## parser.py: `Claim` and the claim extractor -/

/-- `parser.Claim`: a numeric claim extracted from the paper. -/
structure Claim where
  value : ℚ
  raw_text : List Char
  line_number : ℕ
  context : List Char
  metric_hint : Option (List Char) := none
  model_hint : Option (List Char) := none
deriving DecidableEq

/-- A character the token body may contain: `[\d,]` of the token regex. -/
def isBodyChar (c : Char) : Bool := c.isDigit || c == ','

/-- `[KMB]` under `re.IGNORECASE`: a magnitude-suffix letter of either case. -/
def isMagSuffix (c : Char) : Bool :=
  c == 'k' || c == 'K' || c == 'm' || c == 'M' || c == 'b' || c == 'B'

/-- An ASCII lowercase letter. -/
def isAsciiLower (c : Char) : Bool := 'a' ≤ c && c ≤ 'z'

/-- What `[a-z]` matches under `re.IGNORECASE`: an ASCII letter of either
case (the flag applies to the whole pattern, the lookahead class included). -/
def isAsciiLetter (c : Char) : Bool := isAsciiLower c || ('A' ≤ c && c ≤ 'Z')

/-- Whether the list starts with a character the `(?![a-z])` lookahead
(under `re.IGNORECASE`) rejects; at end of input the lookahead succeeds. -/
def nextIsAsciiLetter : List Char → Bool
  | [] => false
  | c :: _ => isAsciiLetter c

/-- Greedy match of the token body `[\d,]+\.?\d*` at the head of `cs`:
returns (matched body, rest). The `\.?` matches exactly when the next
character is a dot; the three pieces consume disjoint character classes,
so the greedy match needs no backtracking. -/
def takeBody (cs : List Char) : List Char × List Char :=
  let g1 := cs.takeWhile isBodyChar
  let r1 := cs.dropWhile isBodyChar
  if r1.head? = some '.' then
    (g1 ++ '.' :: r1.tail.takeWhile Char.isDigit, r1.tail.dropWhile Char.isDigit)
  else (g1, r1)

/-- Match of the whole token regex `[\d,]+\.?\d*(?:[KMB](?![a-z]))?` at the
head of `cs` (which is assumed to start with a body character): the body,
then the optional magnitude suffix, taken only when the following
character is not a letter — `re.IGNORECASE` makes the `[a-z]` of the
lookahead match uppercase letters as well. -/
def scanTokenAt (cs : List Char) : List Char × List Char :=
  match (takeBody cs).2 with
  | c :: rest =>
    if isMagSuffix c && !nextIsAsciiLetter rest then ((takeBody cs).1 ++ [c], rest)
    else ((takeBody cs).1, c :: rest)
  | [] => ((takeBody cs).1, [])

/-- `re.finditer` for the token regex: scan left to right; where a body
character starts a match, emit (start index, matched token) and resume
right after the match (`skip` counts the token characters still to pass
over). Structural on the character list. -/
def scanAux : ℕ → ℕ → List Char → List (ℕ × List Char)
  | _, _, [] => []
  | Nat.succ s, i, _ :: cs => scanAux s (i + 1) cs
  | 0, i, c :: cs =>
    if isBodyChar c then
      (i, (scanTokenAt (c :: cs)).1) ::
        scanAux ((scanTokenAt (c :: cs)).1.length - 1) (i + 1) cs
    else scanAux 0 (i + 1) cs

/-- All token matches of a line, leftmost first, with start indices. -/
def findNumberTokens (line : List Char) : List (ℕ × List Char) := scanAux 0 0 line

/-- Digit string to number, most significant first. -/
def digitsVal (ds : List Char) : ℕ :=
  ds.foldl (fun acc c => acc * 10 + (c.toNat - '0'.toNat)) 0

/-- Python `float(s)` restricted to the shapes the extractor can feed it:
digit characters with at most one decimal point. Valid when every
character is a digit or the single dot and at least one digit is present
(`float("")`, `float(".")` and strings with stray characters raise
`ValueError`, i.e. `none`). -/
def pyFloat? (s : List Char) : Option ℚ :=
  let ip := s.takeWhile (fun c => c != '.')
  match s.dropWhile (fun c => c != '.') with
  | [] => if ip.all Char.isDigit && !ip.isEmpty then some (digitsVal ip) else none
  | _ :: fp =>
    if ip.all Char.isDigit && fp.all Char.isDigit && !(ip.isEmpty && fp.isEmpty) then
      some ((digitsVal ip : ℚ) + (digitsVal fp : ℚ) / (10 : ℚ) ^ fp.length)
    else none

/-- `LatexParser._parse_number`: strip the thousands-separating commas
(the `.strip()` of the code is the identity here, a token never contains
whitespace); when the last character is a magnitude suffix `k`/`m`/`b` of
either case, parse the remaining mantissa and scale it; otherwise parse
directly. An empty cleaned string falls through to `float("")`, a
`ValueError`, i.e. `none`. -/
def _parse_number (raw : List Char) : Option ℚ :=
  let cleaned := raw.filter (fun c => c != ',')
  match cleaned.getLast? with
  | none => none
  | some last =>
    if last.toLower == 'k' then (pyFloat? cleaned.dropLast).map (fun q => q * 1000)
    else if last.toLower == 'm' then (pyFloat? cleaned.dropLast).map (fun q => q * 1000000)
    else if last.toLower == 'b' then (pyFloat? cleaned.dropLast).map (fun q => q * 1000000000)
    else pyFloat? cleaned

/-- Python slice `l[s:e]` on a character list (with `s` already clamped at
0 by ℕ subtraction where it is formed). -/
def pySlice (l : List Char) (s e : ℕ) : List Char := (l.drop s).take (e - s)

/-- `LatexParser.METRIC_KEYWORDS`, in the source's (insertion) order. -/
def METRIC_KEYWORDS : List (List Char × List (List Char)) :=
  [ ("mae".toList, ["mae".toList, "mean absolute error".toList]),
    ("rmse".toList, ["rmse".toList, "root mean squared error".toList]),
    ("smape".toList, ["smape".toList, "symmetric mean absolute percentage".toList]),
    ("latency".toList, ["latency".toList, "ms".toList, "millisecond".toList,
      "inference time".toList]),
    ("vram".toList, ["vram".toList, "memory".toList, "gb".toList]),
    ("accuracy".toList, ["accuracy".toList, "acc".toList]) ]

/-- `LatexParser._identify_metric`: the first metric one of whose keywords
occurs in the lowered context. -/
def _identify_metric (context : List Char) : Option (List Char) :=
  (METRIC_KEYWORDS.find? fun p =>
    p.2.any fun kw => containsSub kw (lowerStr context)).map (fun p => p.1)

/-- `[\-\s]` of the model patterns (ASCII whitespace). -/
def isSepChar (c : Char) : Bool := c == '-' || c == ' ' || c == '\t' || c == '\n' || c == '\r'

/-- Size-variant alternatives of the `chronos` pattern, in source order. -/
def chronosSizes : List (List Char) :=
  ["tiny".toList, "mini".toList, "small".toList, "large".toList]

/-- Size-variant alternatives of the `moirai` pattern, in source order. -/
def moiraiSizes : List (List Char) :=
  ["small".toList, "base".toList, "large".toList]

/-- Length matched by `stem[\-\s]*(alt₁|...|altₙ)?` at the head of the
(already lowered) list, `none` when the stem does not match. The
separator run is greedy and no alternative starts with a separator
character, so no backtracking arises. -/
def matchStemSized (stem : List Char) (sizes : List (List Char)) (cs : List Char) : Option ℕ :=
  if startsWithL stem cs then
    let afterStem := cs.drop stem.length
    let seps := (afterStem.takeWhile isSepChar).length
    let afterSeps := afterStem.drop seps
    match sizes.find? (fun w => startsWithL w afterSeps) with
    | some w => some (stem.length + seps + w.length)
    | none => some (stem.length + seps)
  else none

/-- Length matched by the `MODEL_PATTERNS` alternation at the head of the
(already lowered) list, first alternative wins — `xgboost|arima|
chronos[\-\s]*(tiny|mini|small|large)?|moirai[\-\s]*(small|base|large)?|
dlinear|patchtst|timesfm`. -/
def matchModelAt (cs : List Char) : Option ℕ :=
  if startsWithL ("xgboost".toList) cs then some 7
  else if startsWithL ("arima".toList) cs then some 5
  else match matchStemSized ("chronos".toList) chronosSizes cs with
  | some n => some n
  | none => match matchStemSized ("moirai".toList) moiraiSizes cs with
    | some n => some n
    | none =>
      if startsWithL ("dlinear".toList) cs then some 7
      else if startsWithL ("patchtst".toList) cs then some 8
      else if startsWithL ("timesfm".toList) cs then some 7
      else none

/-- `re.search` of the model alternation: leftmost matching position. -/
def searchModel : List Char → Option (List Char)
  | [] => none
  | c :: cs =>
    match matchModelAt (c :: cs) with
    | some n => some ((c :: cs).take n)
    | none => searchModel cs

/-- `LatexParser._identify_model`: first match of the model alternation in
the context, lowered. The `re.IGNORECASE` search followed by
`match.group().lower()` equals searching the lowered context and
returning the lowered matched segment (ASCII, elementwise lowering). -/
def _identify_model (context : List Char) : Option (List Char) :=
  searchModel (lowerStr context)

/-- The per-token body of `_extract_claims_from_line`'s loop: `none` when
one of the filters discards the token (`continue`), otherwise the built
`Claim` with its context window and hints. -/
def tokenToClaim (line : List Char) (line_num : ℕ) (p : ℕ × List Char) : Option Claim :=
  let start := p.1
  let raw := p.2
  if raw.length < 2 && !(raw.contains '.') then none
  else
    match _parse_number raw with
    | none => none
    | some value =>
      if value == 0 || decide ((1000000000 : ℚ) < value) then none
      else
        let ctx := pySlice line (start - 50) (min line.length (start + raw.length + 50))
        some { value := value, raw_text := raw, line_number := line_num, context := ctx,
               metric_hint := _identify_metric ctx, model_hint := _identify_model ctx }

/-- `LatexParser._extract_claims_from_line`: every token match of the
line, passed through the noise filters, with context and hints. -/
def _extract_claims_from_line (line : List Char) (line_num : ℕ) : List Claim :=
  (findNumberTokens line).filterMap (tokenToClaim line line_num)

/-! ## validator.py: `MatchStatus`, `VerificationResult`, the ladder -/

/-- `validator.MatchStatus`. -/
inductive MatchStatus where
  | exact_match
  | close_match
  | mismatch
  | unverified
deriving DecidableEq

/-- `validator.VerificationResult` (the human-readable `message` string is
presentation only and is not modelled). -/
structure VerificationResult where
  claim : Claim
  status : MatchStatus
  matched_value : Option ResultValue := none
  difference_pct : Option ℚ := none
deriving DecidableEq

/-- Python truthiness of an optional string: `None` and `""` are falsy. -/
def truthy : Option (List Char) → Bool
  | none => false
  | some s => !s.isEmpty

/-- Metric part of `_select_best_match`'s score: `+10` when both the hint
and the candidate's metric are truthy and equal after lowering. -/
def metricScore (c : Claim) (m : ResultValue) : ℤ :=
  match c.metric_hint, m.metric with
  | some h, some mm =>
    if !h.isEmpty && !mm.isEmpty && (lowerStr h == lowerStr mm) then 10 else 0
  | _, _ => 0

/-- Model part of the score: `+10` when both are truthy and one lowered
string contains the other (the code's `if`/`elif` adds 10 at most once). -/
def modelScore (c : Claim) (m : ResultValue) : ℤ :=
  match c.model_hint, m.model with
  | some h, some mo =>
    if !h.isEmpty && !mo.isEmpty then
      if containsSub (lowerStr h) (lowerStr mo) then 10
      else if containsSub (lowerStr mo) (lowerStr h) then 10
      else 0
    else 0
  | _, _ => 0

/-- Path part of the score: `+5` when the truthy metric hint occurs in the
candidate's lowered path. -/
def pathScore (c : Claim) (m : ResultValue) : ℤ :=
  match c.metric_hint with
  | some h => if !h.isEmpty && containsSub (lowerStr h) (lowerStr m.path) then 5 else 0
  | none => 0

/-- The additive context-alignment score of `_select_best_match`. -/
def score (c : Claim) (m : ResultValue) : ℤ :=
  metricScore c m + modelScore c m + pathScore c m

/-- First maximum of `best :: rest` by score: replace the running best
only on a strictly greater score. This is what the code's stable
descending sort followed by `scored[0]` computes. -/
def pickMax (c : Claim) (best : ResultValue) : List ResultValue → ResultValue
  | [] => best
  | m :: ms => if score c best < score c m then pickMax c m ms else pickMax c best ms

/-- `_select_best_match` on a non-empty list, split as head and tail: a
singleton returns its element without scoring, otherwise the first
maximum-score candidate. -/
def selectBest (c : Claim) (hd : ResultValue) (tl : List ResultValue) : ResultValue :=
  match tl with
  | [] => hd
  | _ :: _ => pickMax c hd tl

/-- `Validator._select_best_match` (the Python function indexes into a
non-empty list; the empty case, unreachable from `verify_claim`, is
`none`). -/
def _select_best_match (c : Claim) : List ResultValue → Option ResultValue
  | [] => none
  | m :: ms => some (selectBest c m ms)

/-- The difference percentage both the close and the wide tier compute
inline: `abs(best_match.value - claim.value) / abs(best_match.value) * 100`. -/
def diff_pct (matched claimv : ℚ) : ℚ := |matched - claimv| / |matched| * 100

/-- `Validator.verify_claim`: the three-tier ladder — exact bucket, close
fuzzy match at the configured tolerance, wide fuzzy match at the fixed
10.0, else unverified. -/
def verify_claim (m : ResultMatcher) (tolerance_pct : ℚ) (c : Claim) : VerificationResult :=
  match find_exact m c.value with
  | e :: es =>
    { claim := c, status := .exact_match,
      matched_value := some (selectBest c e es), difference_pct := some 0 }
  | [] =>
    match find_matches m c.value tolerance_pct with
    | e :: es =>
      let best := selectBest c e es
      { claim := c, status := .close_match, matched_value := some best,
        difference_pct := some (diff_pct best.value c.value) }
    | [] =>
      match find_matches m c.value 10 with
      | e :: es =>
        let best := selectBest c e es
        { claim := c, status := .mismatch, matched_value := some best,
          difference_pct := some (diff_pct best.value c.value) }
      | [] =>
        { claim := c, status := .unverified, matched_value := none, difference_pct := none }

/-! ## Concrete instances used by witnesses and counterexamples -/

/-- An observation with value 2 and no attribution metadata. -/
def obsA : ResultValue := { value := 2, source_file := [], path := [] }

/-- A matcher holding only `obsA`, with its index built. -/
def MA : ResultMatcher := ResultMatcher.ofValues [obsA]

/-- A claim of exactly 2 (hits the exact tier of `MA`). -/
def claimExact : Claim := { value := 2, raw_text := [], line_number := 1, context := [] }

/-- A claim of 2.02 (within 1 percent of `obsA`, hits the close tier). -/
def claimClose : Claim := { value := 101/50, raw_text := [], line_number := 1, context := [] }

/-- A claim with metric hint `mae` and model hint `xgboost`. -/
def cexClaim : Claim :=
  { value := 1, raw_text := [], line_number := 1, context := [],
    metric_hint := some ("mae".toList), model_hint := some ("xgboost".toList) }

/-- A candidate whose metric equals the hint and with nothing else to score. -/
def cexA : ResultValue :=
  { value := 1, source_file := [], path := [], metric := some ("mae".toList) }

/-- A candidate whose metric differs from the hint but that scores the
model bonus and the path bonus. -/
def cexB : ResultValue :=
  { value := 1, source_file := [], path := "results.mae".toList,
    model := some ("xgboost".toList), metric := some ("rmse".toList) }

/-- The claim the extractor produces from the line `2.5`. -/
def claim25 : Claim :=
  { value := 5/2, raw_text := "2.5".toList, line_number := 7, context := "2.5".toList }

/-- The claim the extractor produces from the line `mae 2.5`. -/
def claimW : Claim :=
  { value := 5/2, raw_text := "2.5".toList, line_number := 1, context := "mae 2.5".toList,
    metric_hint := some ("mae".toList) }

/-! ## Theorems

Core `Rat` arithmetic is irreducible to the elaborator; witnesses evaluate
the embedded functions on concrete rationals, so re-enable unfolding for
this file (the kernel re-checks every such evaluation). -/

attribute [local semireducible] Rat.mul Rat.inv Rat.add Rat.sub

/-- Membership characterization of `find_matches`. -/
theorem mem_find_matches {m : ResultMatcher} {V T : ℚ} {o : ResultValue} :
    o ∈ find_matches m V T ↔
      o ∈ m.values ∧ o.value ≠ 0 ∧ |o.value - V| / |o.value| * 100 ≤ T := by
  unfold find_matches
  rw [List.mem_filter]
  constructor
  · rintro ⟨hmem, hcond⟩
    by_cases hz : o.value = 0
    · rw [if_pos (beq_iff_eq.mpr hz)] at hcond
      exact absurd hcond (by simp)
    · rw [if_neg (by simpa using hz)] at hcond
      exact ⟨hmem, hz, of_decide_eq_true hcond⟩
  · rintro ⟨hmem, hz, hle⟩
    refine ⟨hmem, ?_⟩
    rw [if_neg (by simpa using hz)]
    exact decide_eq_true hle

/-- C3. `find_matches(V, T)` returns exactly the observations `o`, in
ingestion order (a sublist of the value collection), with `o.value ≠ 0`
and `|o.value − V| / |o.value| × 100 ≤ T`; zero-valued observations are
skipped before the division, so it is always well-defined. -/
theorem find_matches_characterization (m : ResultMatcher) (V T : ℚ) :
    List.Sublist (find_matches m V T) m.values ∧
    ∀ o : ResultValue, o ∈ find_matches m V T ↔
      o ∈ m.values ∧ o.value ≠ 0 ∧ |o.value - V| / |o.value| * 100 ≤ T :=
  ⟨List.filter_sublist _, fun _ => mem_find_matches⟩

/-- C4. Tolerance monotonicity: every observation returned at tolerance
`T₁ < T₂` is also returned at tolerance `T₂`. -/
theorem find_matches_tolerance_mono (m : ResultMatcher) (V T₁ T₂ : ℚ) (h : T₁ < T₂)
    (o : ResultValue) (ho : o ∈ find_matches m V T₁) : o ∈ find_matches m V T₂ := by
  rcases mem_find_matches.mp ho with ⟨hm, hz, hle⟩
  exact mem_find_matches.mpr ⟨hm, hz, hle.trans h.le⟩

/-- Witness for C4 at the concrete matcher `MA`, V = 2, tolerances 1 < 2. -/
theorem find_matches_tolerance_mono_witness : obsA ∈ find_matches MA 2 2 :=
  find_matches_tolerance_mono MA 2 1 2 (by norm_num) obsA (by decide)

/-- `lookupBucket` after one `addToIndex` step: the bucket of `k` gains
`rv` at its end exactly when `k` is the inserted key. -/
theorem lookupBucket_addToIndex (idx : List (ℚ × List ResultValue)) (k' : ℚ)
    (rv : ResultValue) (k : ℚ) :
    lookupBucket (addToIndex idx k' rv) k
      = lookupBucket idx k ++ (if k' == k then [rv] else []) := by
  induction idx with
  | nil =>
    by_cases h : k' = k <;> simp [addToIndex, lookupBucket, h]
  | cons hd tl ih =>
    obtain ⟨k₀, b⟩ := hd
    by_cases h0 : k₀ = k'
    · subst h0
      by_cases hk : k₀ = k <;> simp [addToIndex, lookupBucket, hk]
    · by_cases hk : k₀ = k
      · subst hk
        have hne : ¬ k' = k₀ := fun hc => h0 hc.symm
        simp [addToIndex, lookupBucket, h0, hne]
      · simp [addToIndex, lookupBucket, h0, hk, ih]

/-- `lookupBucket` after folding `addToIndex` over a value list. -/
theorem lookupBucket_build (vs : List ResultValue) (idx : List (ℚ × List ResultValue))
    (k : ℚ) :
    lookupBucket (vs.foldl (fun i rv => addToIndex i (round6 rv.value) rv) idx) k
      = lookupBucket idx k ++ vs.filter (fun rv => round6 rv.value == k) := by
  induction vs generalizing idx with
  | nil => simp
  | cons rv vs ih =>
    rw [List.foldl_cons, ih, lookupBucket_addToIndex, List.filter_cons]
    by_cases h : round6 rv.value = k <;> simp [h]

/-- C5. The index invariant: rebuilding discards the previous index state
(the result is the same whatever index was there before); every
observation sits, in insertion order, in the bucket keyed by its value
rounded to 6 fractional digits (the bucket of key `k` is exactly the
ingestion-ordered filter of the collection by that key); and `find_exact`
returns exactly the bucket of `round(V, 6)`, empty if none exists. -/
theorem build_index_characterization (vs : List ResultValue)
    (old₁ old₂ : List (ℚ × List ResultValue)) :
    _build_index old₁ vs = _build_index old₂ vs ∧
    (∀ k : ℚ, lookupBucket (_build_index old₁ vs) k
        = vs.filter (fun rv => round6 rv.value == k)) ∧
    (∀ V : ℚ, find_exact (ResultMatcher.ofValues vs) V
        = vs.filter (fun rv => round6 rv.value == round6 V)) := by
  refine ⟨rfl, fun k => ?_, fun V => ?_⟩
  · simpa [_build_index, lookupBucket] using lookupBucket_build vs [] k
  · simpa [find_exact, ResultMatcher.ofValues, _build_index, lookupBucket] using
      lookupBucket_build vs [] (round6 V)

/-- C1. `verify_claim` walks the three-tier ladder terminally: a non-empty
exact bucket gives `ExactMatch` with difference 0; otherwise a non-empty
close query at the configured tolerance gives `CloseMatch`; otherwise a
non-empty wide query at the fixed 10.0 gives `Mismatch`; otherwise
`Unverified` with no matched observation and no difference percentage. A
later tier is never reached when an earlier one succeeded, and the ladder
is a total function (the embedded definition never fails: the close and
wide tiers divide only by values `find_matches` guarantees non-zero). -/
theorem verify_claim_ladder (m : ResultMatcher) (tol : ℚ) (c : Claim) :
    (find_exact m c.value ≠ [] →
      (verify_claim m tol c).status = MatchStatus.exact_match ∧
      (verify_claim m tol c).difference_pct = some 0) ∧
    (find_exact m c.value = [] → find_matches m c.value tol ≠ [] →
      (verify_claim m tol c).status = MatchStatus.close_match) ∧
    (find_exact m c.value = [] → find_matches m c.value tol = [] →
      find_matches m c.value 10 ≠ [] →
      (verify_claim m tol c).status = MatchStatus.mismatch) ∧
    (find_exact m c.value = [] → find_matches m c.value tol = [] →
      find_matches m c.value 10 = [] →
      (verify_claim m tol c).status = MatchStatus.unverified ∧
      (verify_claim m tol c).matched_value = none ∧
      (verify_claim m tol c).difference_pct = none) := by
  refine ⟨?_, ?_, ?_, ?_⟩
  · intro hne
    rcases hE : find_exact m c.value with _ | ⟨e, es⟩
    · exact absurd hE hne
    · simp [verify_claim, hE]
  · intro hE hne
    rcases hC : find_matches m c.value tol with _ | ⟨f, fs⟩
    · exact absurd hC hne
    · simp [verify_claim, hE, hC]
  · intro hE hC hne
    rcases hW : find_matches m c.value 10 with _ | ⟨g, gs⟩
    · exact absurd hW hne
    · simp [verify_claim, hE, hC, hW]
  · intro hE hC hW
    simp [verify_claim, hE, hC, hW]

/-- Witness for C1: on the concrete matcher `MA` the claim 2 has a
non-empty exact bucket and resolves to `ExactMatch` with difference 0. -/
theorem verify_claim_ladder_witness :
    (verify_claim MA 1 claimExact).status = MatchStatus.exact_match ∧
    (verify_claim MA 1 claimExact).difference_pct = some 0 :=
  (verify_claim_ladder MA 1 claimExact).1 (by decide)

/-- C2. Whenever the result carries a difference percentage with status
`CloseMatch` or `Mismatch`, it equals
`|matched.value − claim.value| / |matched.value| × 100` — the denominator
is the matched observation's value, not the claim's; and the formula at
matched 2.50 against claim 2.10 yields exactly 16. -/
theorem difference_pct_uses_matched_denominator (m : ResultMatcher) (tol : ℚ) (c : Claim) :
    (∀ bm : ResultValue, (verify_claim m tol c).matched_value = some bm →
      ((verify_claim m tol c).status = MatchStatus.close_match ∨
        (verify_claim m tol c).status = MatchStatus.mismatch) →
      (verify_claim m tol c).difference_pct
        = some (|bm.value - c.value| / |bm.value| * 100)) ∧
    diff_pct (5/2) (21/10) = 16 := by
  constructor
  · intro bm hbm hst
    rcases hE : find_exact m c.value with _ | ⟨e, es⟩
    · rcases hC : find_matches m c.value tol with _ | ⟨f, fs⟩
      · rcases hW : find_matches m c.value 10 with _ | ⟨g, gs⟩
        · simp [verify_claim, hE, hC, hW] at hst
        · simp only [verify_claim, hE, hC, hW] at hbm ⊢
          obtain rfl := Option.some.inj hbm
          rfl
      · simp only [verify_claim, hE, hC] at hbm ⊢
        obtain rfl := Option.some.inj hbm
        rfl
    · simp [verify_claim, hE] at hst
  · decide

/-- Witness for C2: the close-tier result of `MA` on claim 2.02 matches
`obsA` and carries the asymmetric difference percentage. -/
theorem difference_pct_uses_matched_denominator_witness :
    (verify_claim MA 1 claimClose).difference_pct
      = some (|obsA.value - claimClose.value| / |obsA.value| * 100) :=
  (difference_pct_uses_matched_denominator MA 1 claimClose).1 obsA (by decide)
    (Or.inl (by decide))

/-- `pickMax` returns an element of the seed-plus-candidates list. -/
theorem pickMax_mem (c : Claim) (b : ResultValue) (es : List ResultValue) :
    pickMax c b es ∈ b :: es := by
  induction es generalizing b with
  | nil => simp [pickMax]
  | cons m ms ih =>
    rw [pickMax]
    split
    · exact List.mem_cons_of_mem b (ih m)
    · rcases List.mem_cons.mp (ih b) with h | h
      · rw [h]; exact List.mem_cons_self _ _
      · exact List.mem_cons_of_mem b (List.mem_cons_of_mem m h)

/-- `pickMax` attains the maximum score on the seed-plus-candidates list. -/
theorem pickMax_le (c : Claim) (b : ResultValue) (es : List ResultValue) :
    ∀ x ∈ b :: es, score c x ≤ score c (pickMax c b es) := by
  induction es generalizing b with
  | nil =>
    intro x hx
    rcases List.mem_cons.mp hx with hxb | hx'
    · rw [hxb]; simp [pickMax]
    · simp at hx'
  | cons m ms ih =>
    intro x hx
    rw [pickMax]
    split
    next hlt =>
      rcases List.mem_cons.mp hx with hxb | hx'
      · rw [hxb]; exact le_trans hlt.le (ih m m (List.mem_cons_self _ _))
      · exact ih m x hx'
    next hnlt =>
      rcases List.mem_cons.mp hx with hxb | hx'
      · rw [hxb]; exact ih b b (List.mem_cons_self _ _)
      · rcases List.mem_cons.mp hx' with hxm | hx''
        · rw [hxm]; exact le_trans (not_lt.mp hnlt) (ih b b (List.mem_cons_self _ _))
        · exact ih b x (List.mem_cons_of_mem b hx'')

/-- `pickMax` is the first maximum: everything strictly before the chosen
element in the seed-plus-candidates list scores strictly less. -/
theorem pickMax_first (c : Claim) (b : ResultValue) (es : List ResultValue) :
    ∃ l₁ l₂, b :: es = l₁ ++ pickMax c b es :: l₂ ∧
      ∀ x ∈ l₁, score c x < score c (pickMax c b es) := by
  induction es generalizing b with
  | nil => exact ⟨[], [], by simp [pickMax], by simp⟩
  | cons m ms ih =>
    by_cases h : score c b < score c m
    · obtain ⟨l₁, l₂, heq, hlt⟩ := ih m
      refine ⟨b :: l₁, l₂, ?_, ?_⟩
      · simp only [pickMax, if_pos h, List.cons_append]
        rw [← heq]
      · intro x hx
        simp only [pickMax, if_pos h]
        rcases List.mem_cons.mp hx with rfl | hx'
        · exact lt_of_lt_of_le h (pickMax_le c m ms m (List.mem_cons_self _ _))
        · exact hlt x hx'
    · obtain ⟨l₁, l₂, heq, hlt⟩ := ih b
      cases l₁ with
      | nil =>
        simp only [List.nil_append] at heq
        refine ⟨[], m :: ms, ?_, by simp⟩
        simp only [pickMax, if_neg h, List.nil_append]
        injection heq with h1 h2
        rw [← h1]
      | cons hd t =>
        simp only [List.cons_append] at heq
        injection heq with h1 h2
        refine ⟨hd :: m :: t, l₂, ?_, ?_⟩
        · simp only [pickMax, if_neg h, List.cons_append]
          rw [← h1, ← h2]
        · intro x hx
          simp only [pickMax, if_neg h]
          rcases List.mem_cons.mp hx with rfl | hx'
          · exact hlt _ (List.mem_cons_self _ _)
          · rcases List.mem_cons.mp hx' with rfl | hx''
            · exact lt_of_le_of_lt (not_lt.mp h)
                (h1 ▸ hlt hd (List.mem_cons_self _ _))
            · exact hlt x (List.mem_cons_of_mem _ hx'')

/-- `selectBest` is `pickMax` (the singleton short-circuit agrees with it). -/
theorem selectBest_eq_pickMax (c : Claim) (e : ResultValue) (es : List ResultValue) :
    selectBest c e es = pickMax c e es := by
  cases es <;> rfl

/-- C6 (amended). `_select_best_match` returns, from a non-empty candidate
list, the candidate with the maximum additive score, ties broken by first
position; a singleton returns its element without scoring. Of two
candidates, the one with the strictly greater total score is selected
regardless of their order — selection of the candidate whose metric
equals the claim's metric hint is guaranteed only when its total score
exceeds the other's, since the metric bonus can be outweighed by the
model and path bonuses (see the counterexample). -/
theorem select_best_match_spec (c : Claim) (e : ResultValue) (es : List ResultValue) :
    _select_best_match c (e :: es) = some (selectBest c e es) ∧
    (es = [] → selectBest c e es = e) ∧
    selectBest c e es ∈ e :: es ∧
    (∀ x ∈ e :: es, score c x ≤ score c (selectBest c e es)) ∧
    (∃ l₁ l₂, e :: es = l₁ ++ selectBest c e es :: l₂ ∧
      ∀ x ∈ l₁, score c x < score c (selectBest c e es)) ∧
    (∀ a b : ResultValue, score c b < score c a →
      _select_best_match c [a, b] = some a ∧ _select_best_match c [b, a] = some a) := by
  refine ⟨rfl, ?_, ?_, ?_, ?_, ?_⟩
  · intro h; subst h; rfl
  · rw [selectBest_eq_pickMax]; exact pickMax_mem c e es
  · intro x hx; rw [selectBest_eq_pickMax]; exact pickMax_le c e es x hx
  · simp only [selectBest_eq_pickMax]; exact pickMax_first c e es
  · intro a b hab
    constructor
    · simp [_select_best_match, selectBest, pickMax, not_lt.mpr hab.le]
    · simp [_select_best_match, selectBest, pickMax, hab]

/-- Counterexample to C6 as stated: `cexA` is the only one of the two
candidates whose metric equals the claim's metric hint, yet `cexB` —
scoring the model bonus (10) and the path bonus (5) against `cexA`'s
metric bonus (10) — is selected in either order. -/
theorem select_best_match_metric_order_cex :
    cexClaim.metric_hint = some ("mae".toList) ∧
    cexA.metric = some ("mae".toList) ∧
    cexB.metric = some ("rmse".toList) ∧
    score cexClaim cexA = 10 ∧
    score cexClaim cexB = 15 ∧
    _select_best_match cexClaim [cexA, cexB] = some cexB ∧
    _select_best_match cexClaim [cexB, cexA] = some cexB := by
  decide

/-- Witness for C6 (amended): with the strictly higher score, `cexB` is
selected in either order. -/
theorem select_best_match_spec_witness :
    _select_best_match cexClaim [cexB, cexA] = some cexB ∧
    _select_best_match cexClaim [cexA, cexB] = some cexB :=
  (select_best_match_spec cexClaim cexB [cexA]).2.2.2.2.2 cexB cexA (by decide)

/-- The body match splits the input: body ++ rest = input. -/
theorem takeBody_append (cs : List Char) : (takeBody cs).1 ++ (takeBody cs).2 = cs := by
  simp only [takeBody]
  by_cases h : (cs.dropWhile isBodyChar).head? = some '.'
  · rw [if_pos h]
    obtain ⟨r2, hr⟩ : ∃ r2, cs.dropWhile isBodyChar = '.' :: r2 := by
      rcases hd : cs.dropWhile isBodyChar with _ | ⟨c, r2⟩
      · rw [hd] at h; simp at h
      · rw [hd] at h
        simp only [List.head?_cons, Option.some.injEq] at h
        exact ⟨r2, by rw [h]⟩
    rw [hr]
    simp only [List.tail_cons, List.append_assoc, List.cons_append,
      List.takeWhile_append_dropWhile]
    rw [← hr]
    exact List.takeWhile_append_dropWhile _ _
  · rw [if_neg h]
    exact List.takeWhile_append_dropWhile _ _

/-- The token match splits the input: token ++ rest = input. -/
theorem scanTokenAt_append (cs : List Char) :
    (scanTokenAt cs).1 ++ (scanTokenAt cs).2 = cs := by
  have hb := takeBody_append cs
  rcases h : (takeBody cs).2 with _ | ⟨c, rest⟩
  · rw [h, List.append_nil] at hb
    simp only [scanTokenAt, h]
    simpa using hb
  · rw [h] at hb
    simp only [scanTokenAt, h]
    by_cases hc : (isMagSuffix c && !nextIsAsciiLetter rest) = true
    · rw [if_pos hc]
      simpa [List.append_assoc] using hb
    · rw [if_neg hc]
      exact hb

/-- C7 (amended). After the token body, a magnitude-suffix letter `k`, `m`
or `b` of either case is taken into the token exactly when the character
after it is not an ASCII letter of either case: `re.IGNORECASE` applies
to the whole pattern, so the `(?![a-z])` lookahead also rejects uppercase
followers. When a letter of either case follows (as in `ms` or `KB`), no
magnitude suffix is attached to the token. -/
theorem magnitude_suffix_lookahead (cs : List Char) :
    (∀ σ rest, (takeBody cs).2 = σ :: rest → isMagSuffix σ = true →
        nextIsAsciiLetter rest = false →
        scanTokenAt cs = ((takeBody cs).1 ++ [σ], rest)) ∧
    (∀ σ rest, (takeBody cs).2 = σ :: rest →
        (isMagSuffix σ = false ∨ nextIsAsciiLetter rest = true) →
        scanTokenAt cs = ((takeBody cs).1, σ :: rest)) ∧
    ((takeBody cs).2 = [] → scanTokenAt cs = ((takeBody cs).1, [])) := by
  refine ⟨?_, ?_, ?_⟩
  · intro σ rest h hσ hnext
    simp only [scanTokenAt, h]
    rw [if_pos (by rw [hσ, hnext]; rfl)]
  · intro σ rest h hor
    simp only [scanTokenAt, h]
    rw [if_neg ?_]
    rcases hor with h1 | h1 <;> simp [h1]
  · intro h
    simp only [scanTokenAt, h]

/-- Witness for C7 (amended) on `1.2M`: the suffix `M` stands at the end
of the input (no letter follows), so it is attached to the token. -/
theorem magnitude_suffix_lookahead_witness :
    scanTokenAt ("1.2M".toList) = ((takeBody ("1.2M".toList)).1 ++ ['M'], []) :=
  (magnitude_suffix_lookahead ("1.2M".toList)).1 'M' [] (by decide) (by decide)
    (by decide)

/-- Counterexample to C7 as stated: in `98.5KB` the magnitude letter `K`
is followed by `B`, which is not a lowercase letter, yet the token stops
at `98.5` (the claim extracted parses to 98.5, not 98500): the code's
lookahead also rejects uppercase followers. -/
theorem magnitude_suffix_lookahead_cex :
    isAsciiLower 'B' = false ∧
    scanTokenAt ("98.5KB".toList) = ("98.5".toList, "KB".toList) ∧
    (_extract_claims_from_line ("98.5KB".toList) 1).map Claim.raw_text
      = ["98.5".toList] ∧
    (_extract_claims_from_line ("98.5KB".toList) 1).map Claim.value = [197/2] := by
  decide

/-- C8. `_parse_number` strips the thousands-separating commas; when the
cleaned token ends in a magnitude suffix `k`/`m`/`b` (case-insensitive),
the remaining mantissa is parsed and scaled by 1e3/1e6/1e9 respectively,
otherwise the cleaned string is parsed directly; `98.5K` parses to 98500,
`3,102` to 3102 and `1.2M` to 1200000. -/
theorem parse_number_spec :
    (∀ raw : List Char, ∀ l,
      (raw.filter (fun c => c != ',')).getLast? = some l →
      ((l.toLower = 'k' → _parse_number raw
          = (pyFloat? (raw.filter (fun c => c != ',')).dropLast).map (fun q => q * 1000)) ∧
       (l.toLower = 'm' → _parse_number raw
          = (pyFloat? (raw.filter (fun c => c != ',')).dropLast).map
              (fun q => q * 1000000)) ∧
       (l.toLower = 'b' → _parse_number raw
          = (pyFloat? (raw.filter (fun c => c != ',')).dropLast).map
              (fun q => q * 1000000000)) ∧
       (l.toLower ≠ 'k' → l.toLower ≠ 'm' → l.toLower ≠ 'b' →
          _parse_number raw = pyFloat? (raw.filter (fun c => c != ','))))) ∧
    _parse_number ("98.5K".toList) = some 98500 ∧
    _parse_number ("3,102".toList) = some 3102 ∧
    _parse_number ("1.2M".toList) = some 1200000 := by
  refine ⟨?_, by decide, by decide, by decide⟩
  intro raw l hl
  refine ⟨fun hk => ?_, fun hm => ?_, fun hb => ?_, fun hk hm hb => ?_⟩
  · simp only [_parse_number, hl, hk]
    simp
  · simp only [_parse_number, hl, hm]
    simp
  · simp only [_parse_number, hl, hb]
    simp
  · simp only [_parse_number, hl]
    rw [if_neg (by simpa using hk), if_neg (by simpa using hm),
      if_neg (by simpa using hb)]

/-- Witness for C8 on `1.2M`: the cleaned token ends in `M`, so the
mantissa is parsed and scaled by 1e6. -/
theorem parse_number_spec_witness :
    _parse_number ("1.2M".toList)
      = (pyFloat? (("1.2M".toList).filter (fun c => c != ',')).dropLast).map
          (fun q => q * 1000000) :=
  (parse_number_spec.1 ("1.2M".toList) 'M' (by decide)).2.1 (by decide)

/-- C9. Every claim the extractor produces comes from a token of length at
least 2 or containing a decimal point, and its value is neither 0 nor
above 1e9; the line `1` yields no claim at all. -/
theorem noise_rejection (line : List Char) (n : ℕ) :
    (∀ c ∈ _extract_claims_from_line line n,
      (2 ≤ c.raw_text.length ∨ c.raw_text.contains '.' = true) ∧
      c.value ≠ 0 ∧ c.value ≤ 1000000000) ∧
    _extract_claims_from_line ("1".toList) n = [] := by
  constructor
  · intro c hc
    obtain ⟨p, hp, htc⟩ := List.mem_filterMap.mp hc
    unfold tokenToClaim at htc
    by_cases h1 : (decide (p.2.length < 2) && !(p.2.contains '.')) = true
    · rw [if_pos h1] at htc; simp at htc
    · rw [if_neg h1] at htc
      rcases hpn : _parse_number p.2 with _ | v <;> rw [hpn] at htc <;>
        dsimp only at htc
      · simp at htc
      · by_cases h2 : (v == 0 || decide ((1000000000 : ℚ) < v)) = true
        · rw [if_pos h2] at htc; simp at htc
        · rw [if_neg h2] at htc
          obtain rfl := Option.some.inj htc
          simp only [Bool.and_eq_true, Bool.not_eq_true', decide_eq_true_eq,
            not_and, Bool.not_eq_false] at h1
          simp only [Bool.or_eq_true, beq_iff_eq, decide_eq_true_eq, not_or] at h2
          refine ⟨?_, h2.1, not_lt.mp h2.2⟩
          by_cases hlen : p.2.length < 2
          · exact Or.inr (h1 hlen)
          · exact Or.inl (not_lt.mp hlen)
  · rfl

/-- Witness for C9: the claim extracted from the line `2.5` satisfies all
three noise filters. -/
theorem noise_rejection_witness :
    (2 ≤ claim25.raw_text.length ∨ claim25.raw_text.contains '.' = true) ∧
    claim25.value ≠ 0 ∧ claim25.value ≤ 1000000000 :=
  (noise_rejection ("2.5".toList) 7).1 claim25 (by decide)

/-- Every token `scanAux` emits occurs in the line at its recorded start
index (the invariant ties the remaining suffix to the absolute index). -/
theorem scanAux_token_slice (line : List Char) :
    ∀ (cs : List Char) (skip i : ℕ), cs = line.drop i →
      ∀ p ∈ scanAux skip i cs, pySlice line p.1 (p.1 + p.2.length) = p.2 := by
  intro cs
  induction cs with
  | nil => intro skip i _ p hp; simp [scanAux] at hp
  | cons c cs' ih =>
    intro skip i hdrop p hp
    have hdrop' : cs' = line.drop (i + 1) := by
      have h1 : line.drop (i + 1) = List.drop 1 (line.drop i) := by
        rw [List.drop_drop, Nat.add_comm]
      rw [h1, ← hdrop, List.drop_one, List.tail_cons]
    cases skip with
    | succ s =>
      rw [scanAux] at hp
      exact ih s (i + 1) hdrop' p hp
    | zero =>
      rw [scanAux] at hp
      by_cases hb : isBodyChar c = true
      · rw [if_pos hb] at hp
        rcases List.mem_cons.mp hp with hph | hp'
        · subst hph
          have happ := scanTokenAt_append (c :: cs')
          dsimp only
          simp only [pySlice, Nat.add_sub_cancel_left]
          rw [← hdrop]
          revert happ
          generalize (scanTokenAt (c :: cs')).1 = t
          generalize (scanTokenAt (c :: cs')).2 = r
          intro happ
          rw [← happ]
          exact List.take_left _ _
        · exact ih _ (i + 1) hdrop' p hp'
      · rw [if_neg hb] at hp
        exact ih 0 (i + 1) hdrop' p hp

/-- A Python slice of a list is an infix of it. -/
theorem pySlice_decomp (l : List Char) (s e : ℕ) :
    ∃ pre post, l = pre ++ pySlice l s e ++ post := by
  refine ⟨l.take s, (l.drop s).drop (e - s), ?_⟩
  rw [pySlice, List.append_assoc, List.take_append_drop, List.take_append_drop]

/-- C10. Every extracted claim's context window is the slice of the
containing line from `start − 50` (clamped at the line start by ℕ
subtraction) to `min(length, end + 50)`: it is a contiguous substring of
that single line, it brackets the token (which occurs at `start`), and
the metric and model hints are computed from this window only. -/
theorem context_window_within_line (line : List Char) (n : ℕ) :
    ∀ c ∈ _extract_claims_from_line line n,
      ∃ start : ℕ,
        pySlice line start (start + c.raw_text.length) = c.raw_text ∧
        c.context = pySlice line (start - 50)
          (min line.length (start + c.raw_text.length + 50)) ∧
        (∃ pre post, line = pre ++ c.context ++ post) ∧
        c.metric_hint = _identify_metric c.context ∧
        c.model_hint = _identify_model c.context := by
  intro c hc
  obtain ⟨p, hp, htc⟩ := List.mem_filterMap.mp hc
  unfold tokenToClaim at htc
  by_cases h1 : (decide (p.2.length < 2) && !(p.2.contains '.')) = true
  · rw [if_pos h1] at htc; simp at htc
  · rw [if_neg h1] at htc
    rcases hpn : _parse_number p.2 with _ | v <;> rw [hpn] at htc <;>
      dsimp only at htc
    · simp at htc
    · by_cases h2 : (v == 0 || decide ((1000000000 : ℚ) < v)) = true
      · rw [if_pos h2] at htc; simp at htc
      · rw [if_neg h2] at htc
        obtain rfl := Option.some.inj htc
        refine ⟨p.1, ?_, rfl, ?_, rfl, rfl⟩
        · exact scanAux_token_slice line line 0 0 (by simp) p hp
        · exact pySlice_decomp line (p.1 - 50) (min line.length (p.1 + p.2.length + 50))

/-- Witness for C10: the claim extracted from the line `mae 2.5` has its
window, token position and hints as the theorem states. -/
theorem context_window_within_line_witness :
    ∃ start : ℕ,
      pySlice ("mae 2.5".toList) start (start + claimW.raw_text.length)
        = claimW.raw_text ∧
      claimW.context = pySlice ("mae 2.5".toList) (start - 50)
        (min ("mae 2.5".toList).length (start + claimW.raw_text.length + 50)) ∧
      (∃ pre post, "mae 2.5".toList = pre ++ claimW.context ++ post) ∧
      claimW.metric_hint = _identify_metric claimW.context ∧
      claimW.model_hint = _identify_model claimW.context :=
  context_window_within_line ("mae 2.5".toList) 1 claimW (by decide)

end PaperVerify
